import Mathlib

/-!
Verification of the tabular aggregation engine of the likert-chart dashboard.

The repository's data model is embedded shallowly:
* a parsed row (`DataItem`, a JS object mapping column names to strings) is an
  association list `Row := List (String × String)`; `jsGet` models `item[col]`
  (`none` models JS `undefined`);
* JS numbers are embedded as `ℚ` (the programs only add, divide and compare
  values obtained from decimal input cells);
* JS string primitives used by the code (`split`, `trim`, default `sort`,
  `parseFloat`, `Number`) are re-implemented structurally on `List Char`;
* `Array.prototype.sort`, which is stable, is modelled by a stable insertion
  sort `sortStable`;
* JS object insertion-order semantics (`Object.entries`, key creation) are
  modelled by in-place association-list updates (`updateAssoc`).
-/

/-! ### JS string primitives -/

/-- Characters of a string with leading and trailing whitespace removed,
modelling `String.prototype.trim`. -/
def wsTrim (cs : List Char) : List Char :=
  ((cs.dropWhile Char.isWhitespace).reverse.dropWhile Char.isWhitespace).reverse

/-- JS `s.trim()`. -/
def jsTrim (s : String) : String := ⟨wsTrim s.data⟩

/-- Greedy left-to-right split of a character list on the two-character
separator `", "`, accumulating the current (reversed) token in `cur`.
Models `s.split(", ")`, which the aggregators use on condition cells. -/
def splitCommaSpaceAux : List Char → List Char → List (List Char)
  | ',' :: ' ' :: rest, cur => cur.reverse :: splitCommaSpaceAux rest []
  | c :: rest, cur => splitCommaSpaceAux rest (c :: cur)
  | [], cur => [cur.reverse]

/-- JS `s.split(", ")`: always returns at least one token; `"".split(", ")`
is `[""]`. -/
def splitCommaSpace (s : String) : List String :=
  (splitCommaSpaceAux s.data []).map (fun cs => (⟨cs⟩ : String))

/-- Split a character list on a single-character separator, modelling
`s.split(c)` for the one-character separators `","` and `"\n"` that the
parser uses. -/
def splitChar (sep : Char) : List Char → List Char → List (List Char)
  | [], cur => [cur.reverse]
  | x :: rest, cur =>
    if x = sep then cur.reverse :: splitChar sep rest []
    else splitChar sep rest (x :: cur)

/-- JS `s.split(sep)` for a one-character separator. -/
def splitCharS (sep : Char) (s : String) : List String :=
  (splitChar sep s.data []).map (fun cs => (⟨cs⟩ : String))

/-- Code-point lexicographic comparison of character lists, modelling the JS
default string comparison used by `Array.prototype.sort()` (JS compares UTF-16
code units; on the Basic Multilingual Plane this agrees with code points). -/
def lexLeChars : List Char → List Char → Bool
  | [], _ => true
  | _ :: _, [] => false
  | a :: as, b :: bs =>
    if a.toNat < b.toNat then true
    else if b.toNat < a.toNat then false
    else lexLeChars as bs

/-- JS default string ordering `a <= b`. -/
def lexLe (a b : String) : Bool := lexLeChars a.data b.data

/-! ### JS numeric parsing -/

/-- Consume a leading run of decimal digits. -/
def readDigits : List Char → List Char × List Char
  | [] => ([], [])
  | c :: cs =>
    if c.isDigit then
      let (d, r) := readDigits cs
      (c :: d, r)
    else ([], c :: cs)

/-- Numeric value of a digit run. -/
def digitsToNat (ds : List Char) : Nat :=
  ds.foldl (fun n c => 10 * n + (c.toNat - 48)) 0

/-- Consume an optional leading sign; returns whether it was `-`. -/
def readSign : List Char → Bool × List Char
  | '-' :: cs => (true, cs)
  | '+' :: cs => (false, cs)
  | cs => (false, cs)

/-- Mantissa value of integer digits `ip` and fraction digits `fp`. -/
def mantissaVal (ip fp : List Char) : ℚ :=
  (digitsToNat ip : ℚ) + (digitsToNat fp : ℚ) / ((10 : ℚ) ^ fp.length)

/-- Value of a well-formed exponent suffix (`e`/`E`, optional sign, digits)
at the head of `cs`; `0` when no well-formed exponent follows, as JS
`parseFloat` then simply stops before it. -/
def readExp (cs : List Char) : ℤ :=
  match cs with
  | 'e' :: rest | 'E' :: rest =>
    let (neg, r2) := readSign rest
    let (ds, _) := readDigits r2
    if ds = [] then 0
    else if neg then -(digitsToNat ds : ℤ) else (digitsToNat ds : ℤ)
  | _ => 0

/-- Models JS `Number.parseFloat` on decimal notation: skip leading
whitespace, optional sign, digits with optional fraction and optional
exponent, reading the longest valid numeric prefix; `none` models `NaN`
(no number could be parsed).  The `Infinity` literal is not modelled; the
input data never contains it. -/
def parseFloatJs (s : String) : Option ℚ :=
  let cs := s.data.dropWhile Char.isWhitespace
  let (neg, r1) := readSign cs
  let (ip, r2) := readDigits r1
  let (fp, r3) :=
    match r2 with
    | '.' :: rest => readDigits rest
    | _ => (([] : List Char), r2)
  if ip = [] ∧ fp = [] then none
  else
    let v := mantissaVal ip fp * (10 : ℚ) ^ readExp r3
    some (if neg then -v else v)

/-- Models JS `Number(s)` on decimal notation: whitespace-trimmed empty
string is `0`; otherwise the whole trimmed string must be a signed decimal
literal with optional exponent, else `none` (`NaN`).  Hex/binary/octal and
`Infinity` literals are not modelled; the input data never contains them. -/
def jsNumber (s : String) : Option ℚ :=
  match wsTrim s.data with
  | [] => some 0
  | cs =>
    let (neg, r1) := readSign cs
    let (ip, r2) := readDigits r1
    let (fp, r3) :=
      match r2 with
      | '.' :: rest => readDigits rest
      | _ => (([] : List Char), r2)
    if ip = [] ∧ fp = [] then none
    else
      let signedMant := if neg then -mantissaVal ip fp else mantissaVal ip fp
      match r3 with
      | [] => some signedMant
      | 'e' :: rest | 'E' :: rest =>
        let (eneg, r4) := readSign rest
        let (ds, r5) := readDigits r4
        if ds = [] ∨ r5 ≠ [] then none
        else
          some (signedMant *
            (10 : ℚ) ^ (if eneg then -(digitsToNat ds : ℤ) else (digitsToNat ds : ℤ)))
      | _ => none

/-- JS `Number(s) || 0`: an unparseable (`NaN`) cell contributes `0`. -/
def jsNumOr0 (s : String) : ℚ := (jsNumber s).getD 0

/-! ### Stable sort (model of `Array.prototype.sort`) -/

/-- Insert `x` into `l` before the first element `y` with `le x y`;
together with `sortStable` this is the stable sort determined by the total
preorder `le` (`le a b` meaning "`a` may come before `b`"). -/
def insertStable (le : α → α → Bool) (x : α) : List α → List α
  | [] => [x]
  | y :: ys => if le x y then x :: y :: ys else y :: insertStable le x ys

/-- Stable insertion sort; models JS `Array.prototype.sort(cmp)` (stable per
the ECMAScript specification) where `le a b` models `cmp(a,b) <= 0`. -/
def sortStable (le : α → α → Bool) : List α → List α
  | [] => []
  | x :: xs => insertStable le x (sortStable le xs)

theorem length_insertStable (le : α → α → Bool) (x : α) (l : List α) :
    (insertStable le x l).length = l.length + 1 := by
  induction l with
  | nil => rfl
  | cons y ys ih =>
    simp only [insertStable]
    split <;> simp [ih]

theorem length_sortStable (le : α → α → Bool) (l : List α) :
    (sortStable le l).length = l.length := by
  induction l with
  | nil => rfl
  | cons x xs ih => simp [sortStable, length_insertStable, ih]

theorem mem_insertStable (le : α → α → Bool) (x a : α) (l : List α) :
    a ∈ insertStable le x l ↔ a = x ∨ a ∈ l := by
  induction l with
  | nil => simp [insertStable]
  | cons y ys ih =>
    simp only [insertStable]
    split
    · simp [or_comm, or_assoc, or_left_comm]
    · simp [ih]
      tauto

theorem mem_sortStable (le : α → α → Bool) (a : α) (l : List α) :
    a ∈ sortStable le l ↔ a ∈ l := by
  induction l with
  | nil => simp [sortStable]
  | cons x xs ih => simp [sortStable, mem_insertStable, ih]

theorem pairwise_insertStable (le : α → α → Bool)
    (htrans : ∀ a b c, le a b = true → le b c = true → le a c = true)
    (htot : ∀ a b, le a b = true ∨ le b a = true) (x : α) (l : List α)
    (hl : l.Pairwise (fun a b => le a b = true)) :
    (insertStable le x l).Pairwise (fun a b => le a b = true) := by
  induction l with
  | nil => simp [insertStable]
  | cons y ys ih =>
    simp only [insertStable]
    rcases List.pairwise_cons.mp hl with ⟨hy, hys⟩
    split
    · rename_i hxy
      refine List.pairwise_cons.mpr ⟨?_, hl⟩
      intro b hb
      rcases List.mem_cons.mp hb with rfl | hb
      · exact hxy
      · exact htrans x y b hxy (hy b hb)
    · rename_i hxy
      refine List.pairwise_cons.mpr ⟨?_, ih hys⟩
      intro b hb
      rcases (mem_insertStable le x b ys).mp hb with heq | hb
      · subst heq
        rcases htot b y with h | h
        · exact absurd h hxy
        · exact h
      · exact hy b hb

theorem pairwise_sortStable (le : α → α → Bool)
    (htrans : ∀ a b c, le a b = true → le b c = true → le a c = true)
    (htot : ∀ a b, le a b = true ∨ le b a = true) (l : List α) :
    (sortStable le l).Pairwise (fun a b => le a b = true) := by
  induction l with
  | nil => simp [sortStable]
  | cons x xs ih => exact pairwise_insertStable le htrans htot x _ ih

/-! ### Rows and JS objects -/

/-- A parsed data row (`DataItem`): a JS object mapping column names to
string values, in insertion order. -/
abbrev Row := List (String × String)

/-- JS `item[col]`: `none` models `undefined` (column absent). -/
def jsGet (r : Row) (c : String) : Option String := r.lookup c

/-- JS `item[col]` where only truthiness or string content matters:
`undefined` and `""` are both falsy, so absent collapses to `""`. -/
def jsGetD (r : Row) (c : String) : String := (jsGet r c).getD ""

/-- JS `String(x)` applied to `item[col]`: `String(undefined)` is the
string `"undefined"` (used by the pivot component's key joins and filter). -/
def jsString (o : Option String) : String := o.getD "undefined"

/-- In-place update of a JS object field `obj[k] = f (obj[k])`: an existing
key keeps its position, a new key is appended (JS insertion order). -/
def updateAssoc (m : List (String × α)) (k : String) (f : Option α → α) :
    List (String × α) :=
  match m with
  | [] => [(k, f none)]
  | (k', v) :: rest =>
    if k' = k then (k, f (some v)) :: rest else (k', v) :: updateAssoc rest k f

/-- JS `obj[k] = v`. -/
def setAssoc (m : List (String × α)) (k : String) (v : α) : List (String × α) :=
  updateAssoc m k (fun _ => v)

/-- The key list of a JS object model. -/
def keysOf (m : List (String × α)) : List String := m.map Prod.fst

theorem lookup_consKV (k k' : String) (v : α) (rest : List (String × α)) :
    ((k', v) :: rest).lookup k = if k = k' then some v else rest.lookup k := by
  by_cases h : k = k'
  · subst h
    simp [List.lookup]
  · simp [List.lookup, beq_false_of_ne h, h]

theorem lookup_updateAssoc_self (m : List (String × α)) (k : String)
    (f : Option α → α) : (updateAssoc m k f).lookup k = some (f (m.lookup k)) := by
  induction m with
  | nil => simp [updateAssoc, List.lookup]
  | cons p rest ih =>
    obtain ⟨k', v⟩ := p
    simp only [updateAssoc]
    by_cases h : k' = k
    · subst h
      simp [lookup_consKV]
    · rw [if_neg h, lookup_consKV, lookup_consKV, if_neg (Ne.symm h), if_neg (Ne.symm h), ih]

theorem lookup_updateAssoc_ne (m : List (String × α)) (k k' : String)
    (f : Option α → α) (h : k' ≠ k) :
    (updateAssoc m k f).lookup k' = m.lookup k' := by
  induction m with
  | nil =>
    show ((k, f none) :: []).lookup k' = ([] : List (String × α)).lookup k'
    rw [lookup_consKV, if_neg h]
  | cons p rest ih =>
    obtain ⟨k₀, v⟩ := p
    simp only [updateAssoc]
    by_cases h0 : k₀ = k
    · subst h0
      rw [if_pos rfl, lookup_consKV, lookup_consKV, if_neg h, if_neg h]
    · rw [if_neg h0, lookup_consKV, lookup_consKV, ih]

theorem keysOf_updateAssoc (m : List (String × α)) (k : String) (f : Option α → α) :
    keysOf (updateAssoc m k f) =
      if k ∈ keysOf m then keysOf m else keysOf m ++ [k] := by
  induction m with
  | nil => simp [updateAssoc, keysOf]
  | cons p rest ih =>
    obtain ⟨k', v⟩ := p
    simp only [updateAssoc]
    by_cases h : k' = k
    · subst h
      simp [keysOf]
    · simp only [if_neg h, keysOf, List.map_cons, List.mem_cons]
      rw [show keysOf (updateAssoc rest k f) = (updateAssoc rest k f).map Prod.fst from rfl] at ih
      by_cases hm : k ∈ rest.map Prod.fst
      · simp only [keysOf] at ih
        simp [hm, if_pos (Or.inr hm), ih, Ne.symm h]
      · have : ¬(k = k' ∨ k ∈ rest.map Prod.fst) := by
          rintro (rfl | hc)
          · exact h rfl
          · exact hm hc
        simp only [keysOf] at ih
        simp [this, hm, ih, Ne.symm h]

theorem nodup_keysOf_updateAssoc (m : List (String × α)) (k : String)
    (f : Option α → α) (h : (keysOf m).Nodup) : (keysOf (updateAssoc m k f)).Nodup := by
  rw [keysOf_updateAssoc]
  split
  · exact h
  · rename_i hk
    simpa [List.nodup_append] using ⟨h, hk⟩

theorem mem_keysOf_updateAssoc (m : List (String × α)) (k g : String)
    (f : Option α → α) :
    g ∈ keysOf (updateAssoc m k f) ↔ g = k ∨ g ∈ keysOf m := by
  rw [keysOf_updateAssoc]
  split
  · rename_i hk
    constructor
    · exact Or.inr
    · rintro (rfl | hg)
      · exact hk
      · exact hg
  · simp [or_comm]

theorem lookup_isSome_iff_mem_keysOf (m : List (String × α)) (k : String) :
    (m.lookup k).isSome ↔ k ∈ keysOf m := by
  induction m with
  | nil => simp [keysOf, List.lookup]
  | cons p rest ih =>
    obtain ⟨k', v⟩ := p
    rw [lookup_consKV]
    by_cases h : k = k'
    · subst h
      simp [keysOf]
    · rw [if_neg h, ih]
      simp [keysOf, h]

theorem lookup_eq_of_mem_of_nodup (m : List (String × α)) (k : String) (v : α)
    (hnd : (keysOf m).Nodup) (hmem : (k, v) ∈ m) : m.lookup k = some v := by
  induction m with
  | nil => simp at hmem
  | cons p rest ih =>
    obtain ⟨k', v'⟩ := p
    simp only [keysOf, List.map_cons, List.nodup_cons] at hnd
    rcases List.mem_cons.mp hmem with heq | hmem'
    · obtain ⟨rfl, rfl⟩ := Prod.mk.injEq .. ▸ heq
      simp [lookup_consKV]
    · have hk : k ≠ k' := by
        rintro rfl
        exact hnd.1 (List.mem_map_of_mem Prod.fst hmem')
      simp [lookup_consKV, hk, ih hnd.2 hmem']

/-! ### Filter Engine -/

/-- Filter predicate of the Group Aggregator variant
(`likert-chart.tsx` `processData`, the "top-level Likert" variant):
`Object.entries(filters).every(([column, values]) => values.length === 0 ||
values.includes(item[column]))`.  No trimming; an absent column never
matches (JS `includes(undefined)` is false on a string list). -/
def passesFilters (filters : List (String × List String)) (r : Row) : Bool :=
  filters.all fun p =>
    p.2.isEmpty ||
      match jsGet r p.1 with
      | some v => p.2.contains v
      | none => false

/-- The top-level Likert variant's filter application. -/
def applyFilters (data : List Row) (filters : List (String × List String)) :
    List Row :=
  data.filter (passesFilters filters)

/-- Filter predicate of the Two-Category Comparator variant:
`const itemValue = item[column]?.trim(); return itemValue &&
values.includes(itemValue)` — the value is trimmed and must additionally be
non-empty (truthy). -/
def passesFiltersTrim (filters : List (String × List String)) (r : Row) : Bool :=
  filters.all fun p =>
    p.2.isEmpty ||
      match jsGet r p.1 with
      | some v => !(jsTrim v == "") && p.2.contains (jsTrim v)
      | none => false

/-- The comparator variant's filter application. -/
def applyFiltersTrim (data : List Row) (filters : List (String × List String)) :
    List Row :=
  data.filter (passesFiltersTrim filters)

/-- Modelled from the spec's words, for comparison with the code: "a row
passes iff, for every column with a non-empty allow-set, the row's (trimmed)
value for that column is a member of the allow-set". -/
def specPassesFilters (filters : List (String × List String)) (r : Row) : Bool :=
  filters.all fun p => p.2.isEmpty || p.2.contains (jsTrim (jsGetD r p.1))

/-- C2 (counterexample): the claim fails on the top-level Likert variant,
which compares the raw, untrimmed value: the row `{a: " x "}` with allow-set
`{x}` for column `a` passes per the spec's trimmed-membership predicate but
is rejected by the code's filter. -/
theorem filter_trim_claim_counterexample :
    specPassesFilters [("a", ["x"])] [("a", " x ")] = true ∧
      passesFilters [("a", ["x"])] [("a", " x ")] = false ∧
      applyFilters [[("a", " x ")]] [("a", ["x"])] = [] := by
  refine ⟨by decide, by decide, by decide⟩

/-- C2 (amended): a row passes iff, for every column with a non-empty
allow-set, the row has a value for that column and — in the top-level Likert
variant — the raw (untrimmed) value is a member of the allow-set, while — in
the comparator variant — the trimmed value is non-empty and a member of the
allow-set.  Matching is exact string equality, no case-folding, no partial
matching. -/
theorem filter_passes_iff_allowset_membership
    (filters : List (String × List String)) (r : Row) :
    (passesFilters filters r = true ↔
      ∀ p ∈ filters, p.2 ≠ [] → ∃ v, jsGet r p.1 = some v ∧ v ∈ p.2) ∧
    (passesFiltersTrim filters r = true ↔
      ∀ p ∈ filters, p.2 ≠ [] →
        ∃ v, jsGet r p.1 = some v ∧ jsTrim v ≠ "" ∧ jsTrim v ∈ p.2) := by
  constructor
  · rw [passesFilters, List.all_eq_true]
    constructor
    · intro h p hp hne
      have hb := h p hp
      rw [Bool.or_eq_true] at hb
      rcases hb with hb | hb
      · exact absurd (List.isEmpty_iff.mp hb) hne
      · rcases hv : jsGet r p.1 with _ | v
        · rw [hv] at hb
          simp at hb
        · rw [hv] at hb
          exact ⟨v, rfl, by simpa using hb⟩
    · intro h p hp
      rw [Bool.or_eq_true]
      by_cases hne : p.2 = []
      · exact Or.inl (by simp [hne])
      · rcases h p hp hne with ⟨v, hv, hmem⟩
        rw [hv]
        exact Or.inr (by simpa using hmem)
  · rw [passesFiltersTrim, List.all_eq_true]
    constructor
    · intro h p hp hne
      have hb := h p hp
      rw [Bool.or_eq_true] at hb
      rcases hb with hb | hb
      · exact absurd (List.isEmpty_iff.mp hb) hne
      · rcases hv : jsGet r p.1 with _ | v
        · rw [hv] at hb
          simp at hb
        · rw [hv] at hb
          rw [Bool.and_eq_true] at hb
          refine ⟨v, rfl, ?_, by simpa using hb.2⟩
          simpa using hb.1
    · intro h p hp
      rw [Bool.or_eq_true]
      by_cases hne : p.2 = []
      · exact Or.inl (by simp [hne])
      · rcases h p hp hne with ⟨v, hv, hne', hmem⟩
        rw [hv]
        refine Or.inr ?_
        rw [Bool.and_eq_true]
        exact ⟨by simpa using hne', by simpa using hmem⟩

/-! ### Two-Category Comparator (`likert-chart.tsx`, diverging variant) -/

/-- One emitted comparator record (`ProcessedDataItem` of the diverging
variant). -/
structure CompRec where
  condition : String
  leftValue : ℤ
  rightValue : ℤ
  leftLabel : String
  rightLabel : String
  total : ℕ
deriving DecidableEq

/-- The comparator's return value `{ data, categories: { left, right } }`. -/
structure CompareResult where
  records : List CompRec
  left : String
  right : String
deriving DecidableEq

/-- Per-condition running tallies `{ left, right, total }`. -/
structure SideCounts where
  left : ℕ
  right : ℕ
  total : ℕ
deriving DecidableEq

/-- JS `Array.from(new Set(l))`: deduplication keeping first occurrences in
insertion order. -/
def dedupFirst (l : List String) : List String :=
  l.foldl (fun acc x => if x ∈ acc then acc else acc ++ [x]) []

/-- One row's effect on the comparator's `stats` accumulator: rows with a
falsy condition or response are skipped; `total` is always incremented;
`left` / `right` increments follow the code's `if/else if` on the response. -/
def stepStats (condCol respCol leftCat rightCat : String)
    (m : List (String × SideCounts)) (r : Row) : List (String × SideCounts) :=
  if jsGetD r condCol = "" ∨ jsGetD r respCol = "" then m
  else
    updateAssoc m (jsGetD r condCol) fun o =>
      let s := o.getD ⟨0, 0, 0⟩
      if jsGetD r respCol = leftCat then ⟨s.left + 1, s.right, s.total + 1⟩
      else if jsGetD r respCol = rightCat then ⟨s.left, s.right + 1, s.total + 1⟩
      else ⟨s.left, s.right, s.total + 1⟩

/-- `Array.from(new Set(filteredData.map(item => item[responseColumn])))
.filter(Boolean).sort()`: distinct response values of the filtered rows,
truthy ones only, sorted by the JS default string order. -/
def uniqueResponses (data : List Row) (respCol : String)
    (filters : List (String × List String)) : List String :=
  sortStable lexLe
    ((dedupFirst ((applyFiltersTrim data filters).map fun r => jsGetD r respCol)).filter
      fun v => !(v == ""))

/-- Build one emitted record from a `stats` entry: `leftValue` is the negated
left count (diverging bars), `rightValue` the right count. -/
def mkCompRec (leftCat rightCat : String) (p : String × SideCounts) : CompRec :=
  ⟨p.1, -(p.2.left : ℤ), (p.2.right : ℤ), leftCat, rightCat, p.2.total⟩

/-- The Two-Category Comparator (`processData` of the diverging variant):
guard on empty data / unselected response column, filter, pick the first two
sorted distinct responses, tally, emit records sorted by `total`
descending. -/
def processDataCompare (data : List Row) (condCol respCol : String)
    (filters : List (String × List String)) : CompareResult :=
  if data.isEmpty ∨ respCol = "" then ⟨[], "", ""⟩
  else
    match uniqueResponses data respCol filters with
    | leftCat :: rightCat :: _ =>
      let stats :=
        (applyFiltersTrim data filters).foldl
          (stepStats condCol respCol leftCat rightCat) []
      { records :=
          sortStable (fun a b => decide (b.total ≤ a.total))
            (stats.map (mkCompRec leftCat rightCat)),
        left := leftCat, right := rightCat }
    | _ => ⟨[], "", ""⟩

/-- C5: the end-to-end scenario of the spec: three rows, empty filter spec;
categories are `{left: "No", right: "Yes"}` and the records are exactly
`[{X, -1, 1, 2}, {Y, 0, 1, 1}]`, sorted by total descending. -/
theorem comparator_end_to_end_scenario :
    processDataCompare
        [[("cond", "X"), ("resp", "Yes")],
         [("cond", "X"), ("resp", "No")],
         [("cond", "Y"), ("resp", "Yes")]]
        "cond" "resp" [] =
      { records :=
          [{ condition := "X", leftValue := -1, rightValue := 1,
             leftLabel := "No", rightLabel := "Yes", total := 2 },
           { condition := "Y", leftValue := 0, rightValue := 1,
             leftLabel := "No", rightLabel := "Yes", total := 1 }],
        left := "No", right := "Yes" } := by
  decide

/-- C6: with a real (non-empty-named) response column, fewer than two
distinct non-empty response values yield the empty result — no thrown
failure — and with two or more, the categories are the first two values of
the lexicographically sorted distinct non-empty response values. -/
theorem comparator_min_two_categories (data : List Row) (condCol respCol : String)
    (filters : List (String × List String)) (hresp : respCol ≠ "") :
    ((uniqueResponses data respCol filters).length < 2 →
      processDataCompare data condCol respCol filters = ⟨[], "", ""⟩) ∧
    (∀ a b t, uniqueResponses data respCol filters = a :: b :: t →
      (processDataCompare data condCol respCol filters).left = a ∧
      (processDataCompare data condCol respCol filters).right = b) := by
  constructor
  · intro hlen
    by_cases hd : data.isEmpty ∨ respCol = ""
    · rw [processDataCompare, if_pos hd]
    · rw [processDataCompare, if_neg hd]
      rcases hu : uniqueResponses data respCol filters with _ | ⟨a, _ | ⟨b, t⟩⟩
      · rfl
      · rfl
      · rw [hu] at hlen
        simp only [List.length_cons] at hlen
        exact absurd hlen (by omega)
  · intro a b t hu
    have hd : ¬(data.isEmpty ∨ respCol = "") := by
      rintro (hd | hd)
      · have hnil : uniqueResponses data respCol filters = [] := by
          have : data = [] := List.isEmpty_iff.mp hd
          subst this
          rfl
        rw [hnil] at hu
        cases hu
      · exact hresp hd
    rw [processDataCompare, if_neg hd, hu]
    exact ⟨rfl, rfl⟩

/-- C7: every emitted comparator record has a non-positive `leftValue`
(negated left-category count) and a non-negative `rightValue` (right-category
count). -/
theorem comparator_sign_invariant (data : List Row) (condCol respCol : String)
    (filters : List (String × List String)) (rec : CompRec)
    (hrec : rec ∈ (processDataCompare data condCol respCol filters).records) :
    rec.leftValue ≤ 0 ∧ 0 ≤ rec.rightValue := by
  rw [processDataCompare] at hrec
  by_cases hd : data.isEmpty ∨ respCol = ""
  · rw [if_pos hd] at hrec
    simp at hrec
  · rw [if_neg hd] at hrec
    rcases hu : uniqueResponses data respCol filters with _ | ⟨a, _ | ⟨b, t⟩⟩ <;>
        rw [hu] at hrec
    · simp at hrec
    · simp at hrec
    · dsimp only at hrec
      rw [mem_sortStable, List.mem_map] at hrec
      obtain ⟨p, hp, rfl⟩ := hrec
      refine ⟨?_, ?_⟩
      · exact neg_nonpos.mpr (Int.natCast_nonneg _)
      · exact Int.natCast_nonneg _

/-- A pointwise property of values is preserved by a JS object update,
provided the update function preserves it from the old value. -/
theorem forall_updateAssoc (P : α → Prop) (m : List (String × α)) (k : String)
    (f : Option α → α)
    (hf : ∀ o : Option α, (∀ v, o = some v → P v) → P (f o))
    (hm : ∀ p ∈ m, P p.2) :
    ∀ p ∈ updateAssoc m k f, P p.2 := by
  induction m with
  | nil =>
    intro p hp
    simp only [updateAssoc, List.mem_singleton] at hp
    subst hp
    exact hf none (by simp)
  | cons q rest ih =>
    obtain ⟨k', v⟩ := q
    intro p hp
    simp only [updateAssoc] at hp
    by_cases h : k' = k
    · rw [if_pos h] at hp
      rcases List.mem_cons.mp hp with heq | hp'
      · subst heq
        exact hf (some v) (by rintro w ⟨rfl⟩; exact hm (k', v) (List.mem_cons_self _ _))
      · exact hm p (List.mem_cons_of_mem _ hp')
    · rw [if_neg h] at hp
      rcases List.mem_cons.mp hp with heq | hp'
      · subst heq
        exact hm (k', v) (List.mem_cons_self _ _)
      · exact ih (fun q hq => hm q (List.mem_cons_of_mem _ hq)) p hp'

/-- In every tally produced by the comparator's stats fold,
`left + right ≤ total`: a row increments `total` always but at most one of
the two side counts. -/
theorem stats_fold_le_total (condCol respCol leftCat rightCat : String)
    (rows : List Row) (m : List (String × SideCounts))
    (hm : ∀ p ∈ m, p.2.left + p.2.right ≤ p.2.total) :
    ∀ p ∈ rows.foldl (stepStats condCol respCol leftCat rightCat) m,
      p.2.left + p.2.right ≤ p.2.total := by
  induction rows generalizing m with
  | nil => simpa using hm
  | cons r rows ih =>
    rw [List.foldl_cons]
    apply ih
    rw [stepStats]
    split
    · exact hm
    · refine forall_updateAssoc (fun s : SideCounts => s.left + s.right ≤ s.total) _ _ _ ?_ hm
      intro o ho
      rcases o with _ | s
      · dsimp only [Option.getD]
        split_ifs <;> simp
      · have hs := ho s rfl
        dsimp only [Option.getD]
        split_ifs <;> dsimp only <;> omega

/-- C9: for every emitted comparator record the side counts sum to at most
the total, `-leftValue + rightValue ≤ total`; and a row whose non-empty
response matches neither category increments only `total` of its condition's
tally, leaving both side counts unchanged. -/
theorem comparator_totals_bound :
    (∀ (data : List Row) (condCol respCol : String)
        (filters : List (String × List String)) (rec : CompRec),
        rec ∈ (processDataCompare data condCol respCol filters).records →
        -rec.leftValue + rec.rightValue ≤ (rec.total : ℤ)) ∧
    (∀ (condCol respCol leftCat rightCat : String)
        (m : List (String × SideCounts)) (r : Row),
        jsGetD r condCol ≠ "" → jsGetD r respCol ≠ "" →
        jsGetD r respCol ≠ leftCat → jsGetD r respCol ≠ rightCat →
        (stepStats condCol respCol leftCat rightCat m r).lookup (jsGetD r condCol) =
          some { left := ((m.lookup (jsGetD r condCol)).getD ⟨0, 0, 0⟩).left,
                 right := ((m.lookup (jsGetD r condCol)).getD ⟨0, 0, 0⟩).right,
                 total := ((m.lookup (jsGetD r condCol)).getD ⟨0, 0, 0⟩).total + 1 }) := by
  constructor
  · intro data condCol respCol filters rec hrec
    rw [processDataCompare] at hrec
    by_cases hd : data.isEmpty ∨ respCol = ""
    · rw [if_pos hd] at hrec
      simp at hrec
    · rw [if_neg hd] at hrec
      rcases hu : uniqueResponses data respCol filters with _ | ⟨a, _ | ⟨b, t⟩⟩ <;>
          rw [hu] at hrec
      · simp at hrec
      · simp at hrec
      · dsimp only at hrec
        rw [mem_sortStable, List.mem_map] at hrec
        obtain ⟨p, hp, rfl⟩ := hrec
        have hb := stats_fold_le_total condCol respCol a b
          (applyFiltersTrim data filters) [] (by simp) p hp
        simp only [mkCompRec, neg_neg]
        omega
  · intro condCol respCol leftCat rightCat m r h1 h2 h3 h4
    rw [stepStats, if_neg (by tauto), lookup_updateAssoc_self]
    simp [h3, h4]

/-! ### Group Aggregator (`likert-chart.tsx`, top-level variant `processData`) -/

/-- Per-condition accumulator `{ total, counts }`: `total` counts
(condition-token, row) contributions, `counts` holds one running number per
selected measure column. -/
structure GroupAcc where
  total : ℕ
  counts : List (String × ℚ)
deriving DecidableEq

/-- `selectedColumns.forEach(col => counts[col] = 0)`. -/
def initCounts (cols : List String) : List (String × ℚ) :=
  cols.foldl (fun cs c => setAssoc cs c 0) []

/-- One measure column's per-row accumulation: a falsy (absent or empty)
cell is skipped; a cell parsing as a number adds its value, any other cell
adds 1. -/
def addMeasure (r : Row) (cs : List (String × ℚ)) (c : String) :
    List (String × ℚ) :=
  match jsGet r c with
  | none => cs
  | some v =>
    if v = "" then cs
    else
      match parseFloatJs v with
      | some q => updateAssoc cs c (fun o => o.getD 0 + q)
      | none => updateAssoc cs c (fun o => o.getD 0 + 1)

/-- One condition token's effect on the group map: create the group with
zeroed counts if absent, increment its total, accumulate every selected
measure column. -/
def stepToken (cols : List String) (r : Row)
    (m : List (String × GroupAcc)) (g : String) : List (String × GroupAcc) :=
  updateAssoc m g fun o =>
    let acc := o.getD ⟨0, initCounts cols⟩
    ⟨acc.total + 1, cols.foldl (addMeasure r) acc.counts⟩

/-- One row's effect: rows with a falsy condition cell are skipped entirely;
otherwise the condition value is split on `", "` and every token
contributes. -/
def stepRow (condCol : String) (cols : List String)
    (m : List (String × GroupAcc)) (r : Row) : List (String × GroupAcc) :=
  if jsGetD r condCol = "" then m
  else (splitCommaSpace (jsGetD r condCol)).foldl (stepToken cols r) m

/-- The `conditionCounts` map built by the aggregation loop. -/
def buildCounts (rows : List Row) (condCol : String) (cols : List String) :
    List (String × GroupAcc) :=
  rows.foldl (stepRow condCol cols) []

/-- One emitted record: the condition label plus one derived value per
selected measure column. -/
structure ProcessedItem where
  condition : String
  values : List (String × ℚ)
deriving DecidableEq

/-- `data[0]?.[col] || ""`: the first data row's cell used for the
numeric-ness test. -/
def firstRowVal (data : List Row) (c : String) : String :=
  match data with
  | [] => ""
  | r :: _ => jsGetD r c

/-- Derived value for one measure column of one group: mean for a column
whose first-row value parses as a number, percentage otherwise.  The code's
`|| 0` guards `NaN`; in `ℚ` division by zero already yields `0`, and `total`
is positive for every existing group. -/
def deriveValue (data : List Row) (acc : GroupAcc) (c : String) : ℚ :=
  if (parseFloatJs (firstRowVal data c)).isSome then
    ((acc.counts.lookup c).getD 0) / (acc.total : ℚ)
  else ((acc.counts.lookup c).getD 0) / (acc.total : ℚ) * 100

/-- Build the record for one `conditionCounts` entry. -/
def mkRecord (data : List Row) (cols : List String) (p : String × GroupAcc) :
    ProcessedItem :=
  ⟨p.1, cols.map fun c => (c, deriveValue data p.2 c)⟩

/-- A record's reported value for a measure column (`rec[col]`, `0` when
absent, matching the sort's `|| 0`). -/
def valueOf (rec : ProcessedItem) (c : String) : ℚ :=
  (rec.values.lookup c).getD 0

/-- Sort key `a[selectedColumns[0]] || 0`. -/
def sortKey (cols : List String) (rec : ProcessedItem) : ℚ :=
  match cols with
  | [] => 0
  | c :: _ => valueOf rec c

/-- The Group Aggregator `processData`: filter, aggregate per condition
token, derive per-measure values, sort descending by the first measure
(stable) and keep the top 20. -/
def processData (data : List Row) (condCol : String) (cols : List String)
    (filters : List (String × List String)) : List ProcessedItem :=
  if data.isEmpty then []
  else
    ((sortStable (fun a b => decide (sortKey cols b ≤ sortKey cols a))
        ((buildCounts (applyFilters data filters) condCol cols).map
          (mkRecord data cols))).take 20)

/-! Spec-side characterizations of the aggregation, for comparison with the
imperatively built `conditionCounts` map. -/

/-- Spec-side total of group `g`: each row with a non-empty condition cell
contributes once per occurrence of `g` among its split tokens; rows with an
empty condition cell contribute nothing. -/
def specGroupTotal (rows : List Row) (condCol g : String) : ℕ :=
  (rows.map fun r =>
    if jsGetD r condCol = "" then 0
    else (splitCommaSpace (jsGetD r condCol)).count g).sum

/-- Spec-side per-row, per-measure contribution: `0` for a falsy cell, the
parsed number for a numeric cell, `1` otherwise. -/
def measureContrib (r : Row) (c : String) : ℚ :=
  match jsGet r c with
  | none => 0
  | some v =>
    if v = "" then 0
    else
      match parseFloatJs v with
      | some q => q
      | none => 1

/-- Spec-side accumulated number for `(g, c)`: summed per-row contribution,
weighted by how many of the row's condition tokens equal `g`. -/
def specGroupSum (rows : List Row) (condCol g c : String) : ℚ :=
  (rows.map fun r =>
    if jsGetD r condCol = "" then 0
    else ((splitCommaSpace (jsGetD r condCol)).count g : ℚ) * measureContrib r c).sum

/-- Observed total of a group in the accumulator map (`0` when absent). -/
def obsTotal (m : List (String × GroupAcc)) (g : String) : ℕ :=
  ((m.lookup g).map GroupAcc.total).getD 0

/-- Observed accumulated number for `(g, c)` in the map (`0` when absent). -/
def obsSum (m : List (String × GroupAcc)) (g c : String) : ℚ :=
  match m.lookup g with
  | some acc => (acc.counts.lookup c).getD 0
  | none => 0

/-- All condition tokens contributed by a row list. -/
def allTokens (rows : List Row) (condCol : String) : List String :=
  rows.flatMap fun r =>
    if jsGetD r condCol = "" then []
    else splitCommaSpace (jsGetD r condCol)

/-- `counts[condition] = (counts[condition] || 0) + 1`. -/
def bumpCount (m : List (String × ℕ)) (g : String) : List (String × ℕ) :=
  updateAssoc m g (fun o => o.getD 0 + 1)

/-- One row of the medical chart's `countConditions` loop: skip rows with an
empty `Condition`, otherwise bump every split token's count. -/
def stepCond (m : List (String × ℕ)) (r : Row) : List (String × ℕ) :=
  if jsGetD r "Condition" = "" then m
  else (splitCommaSpace (jsGetD r "Condition")).foldl bumpCount m

/-- The medical chart's `countConditions` tally (before its top-10
sort/slice): same skip-empty / split / count-per-token loop, on the fixed
`Condition` column. -/
def countCond (rows : List Row) : List (String × ℕ) :=
  rows.foldl stepCond []

theorem lookup_addMeasure_getD (r : Row) (cs : List (String × ℚ)) (c : String) :
    ((addMeasure r cs c).lookup c).getD 0 = (cs.lookup c).getD 0 + measureContrib r c := by
  rw [addMeasure, measureContrib]
  rcases jsGet r c with _ | v
  · simp
  · dsimp only
    by_cases hv : v = ""
    · simp [hv]
    · rw [if_neg hv, if_neg hv]
      rcases parseFloatJs v with _ | q <;>
        simp [lookup_updateAssoc_self]

theorem lookup_addMeasure_ne (r : Row) (cs : List (String × ℚ)) (c c' : String)
    (h : c' ≠ c) : (addMeasure r cs c).lookup c' = cs.lookup c' := by
  rw [addMeasure]
  rcases jsGet r c with _ | v
  · rfl
  · dsimp only
    by_cases hv : v = ""
    · simp [hv]
    · rw [if_neg hv]
      rcases parseFloatJs v with _ | q <;>
        simp [lookup_updateAssoc_ne _ _ _ _ h]

theorem lookup_foldl_addMeasure_notmem (r : Row) (cols : List String) (c : String)
    (hc : c ∉ cols) (cs : List (String × ℚ)) :
    (cols.foldl (addMeasure r) cs).lookup c = cs.lookup c := by
  induction cols generalizing cs with
  | nil => rfl
  | cons c0 rest ih =>
    have hne : c ≠ c0 := by
      intro h
      exact hc (by rw [h]; exact List.mem_cons_self _ _)
    rw [List.foldl_cons, ih (fun h => hc (List.mem_cons_of_mem _ h)),
      lookup_addMeasure_ne r cs c0 c hne]

theorem lookup_foldl_addMeasure (r : Row) (cols : List String) (hnd : cols.Nodup)
    (c : String) (hc : c ∈ cols) (cs : List (String × ℚ)) :
    ((cols.foldl (addMeasure r) cs).lookup c).getD 0 =
      (cs.lookup c).getD 0 + measureContrib r c := by
  induction cols generalizing cs with
  | nil => simp at hc
  | cons c0 rest ih =>
    rw [List.foldl_cons]
    rcases List.nodup_cons.mp hnd with ⟨h0, hrest⟩
    rcases List.mem_cons.mp hc with rfl | hcr
    · rw [lookup_foldl_addMeasure_notmem _ _ _ h0, lookup_addMeasure_getD]
    · have hne : c ≠ c0 := by
        intro h
        rw [h] at hcr
        exact h0 hcr
      rw [ih hrest hcr, lookup_addMeasure_ne _ _ _ _ hne]

theorem lookup_initCounts_getD (cols : List String) (k : String) :
    (((initCounts cols).lookup k).getD 0 : ℚ) = 0 := by
  rw [initCounts]
  have main : ∀ (cs : List (String × ℚ)), (∀ j, ((cs.lookup j).getD 0 : ℚ) = 0) →
      ∀ j, (((cols.foldl (fun cs c => setAssoc cs c 0) cs).lookup j).getD 0 : ℚ) = 0 := by
    induction cols with
    | nil => exact fun cs h j => h j
    | cons c0 rest ih =>
      intro cs h j
      rw [List.foldl_cons]
      refine ih _ ?_ j
      intro j'
      by_cases hj : j' = c0
      · subst hj
        rw [setAssoc, lookup_updateAssoc_self]
        rfl
      · rw [setAssoc, lookup_updateAssoc_ne _ _ _ _ hj]
        exact h j'
  exact main [] (fun j => rfl) k

theorem obsTotal_stepToken (cols : List String) (r : Row)
    (m : List (String × GroupAcc)) (g g' : String) :
    obsTotal (stepToken cols r m g') g = obsTotal m g + (if g = g' then 1 else 0) := by
  by_cases h : g = g'
  · subst h
    rw [obsTotal, stepToken, lookup_updateAssoc_self]
    rcases hm : m.lookup g with _ | acc <;> simp [obsTotal, hm]
  · rw [obsTotal, stepToken, lookup_updateAssoc_ne _ _ _ _ h, if_neg h]
    simp [obsTotal]

theorem obsSum_stepToken (cols : List String) (hnd : cols.Nodup) (r : Row)
    (c : String) (hc : c ∈ cols) (m : List (String × GroupAcc)) (g g' : String) :
    obsSum (stepToken cols r m g') g c =
      obsSum m g c + (if g = g' then measureContrib r c else 0) := by
  by_cases h : g = g'
  · subst h
    rw [obsSum, stepToken, lookup_updateAssoc_self]
    rcases hm : m.lookup g with _ | acc
    · simp only [Option.getD_none]
      rw [lookup_foldl_addMeasure r cols hnd c hc, lookup_initCounts_getD]
      simp [obsSum, hm]
    · simp only [Option.getD_some]
      rw [lookup_foldl_addMeasure r cols hnd c hc]
      simp [obsSum, hm]
  · rw [obsSum, stepToken, lookup_updateAssoc_ne _ _ _ _ h, if_neg h]
    simp [obsSum]

theorem count_cons_eq (g t : String) (ts : List String) :
    (t :: ts).count g = ts.count g + if g = t then 1 else 0 := by
  by_cases h : g = t
  · simp [List.count_cons, h]
  · simp [List.count_cons, h, Ne.symm h]

theorem obsTotal_foldl_stepToken (cols : List String) (r : Row)
    (toks : List String) (m : List (String × GroupAcc)) (g : String) :
    obsTotal (toks.foldl (stepToken cols r) m) g = obsTotal m g + toks.count g := by
  induction toks generalizing m with
  | nil => simp
  | cons t ts ih =>
    rw [List.foldl_cons, ih, obsTotal_stepToken, count_cons_eq]
    by_cases h : g = t
    · rw [if_pos h]
      omega
    · rw [if_neg h]
      omega

theorem obsSum_foldl_stepToken (cols : List String) (hnd : cols.Nodup) (r : Row)
    (c : String) (hc : c ∈ cols) (toks : List String)
    (m : List (String × GroupAcc)) (g : String) :
    obsSum (toks.foldl (stepToken cols r) m) g c =
      obsSum m g c + (toks.count g : ℚ) * measureContrib r c := by
  induction toks generalizing m with
  | nil => simp
  | cons t ts ih =>
    rw [List.foldl_cons, ih, obsSum_stepToken cols hnd r c hc, count_cons_eq]
    by_cases h : g = t
    · rw [if_pos h, if_pos h]
      push_cast
      ring
    · rw [if_neg h, if_neg h]
      push_cast
      ring

theorem mem_keysOf_foldl_stepToken (cols : List String) (r : Row)
    (toks : List String) (m : List (String × GroupAcc)) (g : String) :
    g ∈ keysOf (toks.foldl (stepToken cols r) m) ↔ g ∈ toks ∨ g ∈ keysOf m := by
  induction toks generalizing m with
  | nil => simp
  | cons t ts ih =>
    rw [List.foldl_cons, ih, stepToken, mem_keysOf_updateAssoc]
    simp only [List.mem_cons]
    tauto

theorem nodup_keysOf_foldl_stepToken (cols : List String) (r : Row)
    (toks : List String) (m : List (String × GroupAcc))
    (h : (keysOf m).Nodup) : (keysOf (toks.foldl (stepToken cols r) m)).Nodup := by
  induction toks generalizing m with
  | nil => exact h
  | cons t ts ih =>
    rw [List.foldl_cons]
    exact ih _ (nodup_keysOf_updateAssoc _ _ _ h)

theorem specGroupTotal_cons (r : Row) (rs : List Row) (condCol g : String) :
    specGroupTotal (r :: rs) condCol g =
      (if jsGetD r condCol = "" then 0
        else (splitCommaSpace (jsGetD r condCol)).count g) +
        specGroupTotal rs condCol g := by
  rw [specGroupTotal, specGroupTotal, List.map_cons, List.sum_cons]

theorem specGroupSum_cons (r : Row) (rs : List Row) (condCol g c : String) :
    specGroupSum (r :: rs) condCol g c =
      (if jsGetD r condCol = "" then 0
        else ((splitCommaSpace (jsGetD r condCol)).count g : ℚ) * measureContrib r c) +
        specGroupSum rs condCol g c := by
  rw [specGroupSum, specGroupSum, List.map_cons, List.sum_cons]

theorem allTokens_cons (r : Row) (rs : List Row) (condCol : String) :
    allTokens (r :: rs) condCol =
      (if jsGetD r condCol = "" then [] else splitCommaSpace (jsGetD r condCol)) ++
        allTokens rs condCol := by
  rw [allTokens, allTokens, List.flatMap_cons]

theorem obsTotal_foldl_stepRow (condCol : String) (cols : List String)
    (rows : List Row) (m : List (String × GroupAcc)) (g : String) :
    obsTotal (rows.foldl (stepRow condCol cols) m) g =
      obsTotal m g + specGroupTotal rows condCol g := by
  induction rows generalizing m with
  | nil => simp [specGroupTotal]
  | cons r rs ih =>
    rw [List.foldl_cons, ih, specGroupTotal_cons, stepRow]
    by_cases h : jsGetD r condCol = ""
    · rw [if_pos h, if_pos h]
      omega
    · rw [if_neg h, if_neg h, obsTotal_foldl_stepToken]
      omega

theorem obsSum_foldl_stepRow (condCol : String) (cols : List String)
    (hnd : cols.Nodup) (c : String) (hc : c ∈ cols)
    (rows : List Row) (m : List (String × GroupAcc)) (g : String) :
    obsSum (rows.foldl (stepRow condCol cols) m) g c =
      obsSum m g c + specGroupSum rows condCol g c := by
  induction rows generalizing m with
  | nil => simp [specGroupSum]
  | cons r rs ih =>
    rw [List.foldl_cons, ih, specGroupSum_cons, stepRow]
    by_cases h : jsGetD r condCol = ""
    · rw [if_pos h, if_pos h]
      ring
    · rw [if_neg h, if_neg h, obsSum_foldl_stepToken cols hnd r c hc]
      ring

theorem mem_keysOf_foldl_stepRow (condCol : String) (cols : List String)
    (rows : List Row) (m : List (String × GroupAcc)) (g : String) :
    g ∈ keysOf (rows.foldl (stepRow condCol cols) m) ↔
      g ∈ allTokens rows condCol ∨ g ∈ keysOf m := by
  induction rows generalizing m with
  | nil => simp [allTokens]
  | cons r rs ih =>
    rw [List.foldl_cons, ih, allTokens_cons, stepRow]
    by_cases h : jsGetD r condCol = ""
    · rw [if_pos h, if_pos h]
      simp
    · rw [if_neg h, if_neg h, mem_keysOf_foldl_stepToken]
      simp only [List.mem_append]
      tauto

theorem nodup_keysOf_foldl_stepRow (condCol : String) (cols : List String)
    (rows : List Row) (m : List (String × GroupAcc))
    (h : (keysOf m).Nodup) :
    (keysOf (rows.foldl (stepRow condCol cols) m)).Nodup := by
  induction rows generalizing m with
  | nil => exact h
  | cons r rs ih =>
    rw [List.foldl_cons]
    refine ih _ ?_
    rw [stepRow]
    split
    · exact h
    · exact nodup_keysOf_foldl_stepToken _ _ _ _ h

theorem lookup_foldl_bumpCount (toks : List String) (m : List (String × ℕ))
    (g : String) :
    ((toks.foldl bumpCount m).lookup g).getD 0 =
      (m.lookup g).getD 0 + toks.count g := by
  induction toks generalizing m with
  | nil => simp
  | cons t ts ih =>
    rw [List.foldl_cons, ih, count_cons_eq]
    by_cases h : g = t
    · subst h
      rw [bumpCount, lookup_updateAssoc_self, if_pos rfl, Option.getD_some]
      omega
    · rw [bumpCount, lookup_updateAssoc_ne _ _ _ _ h, if_neg h]
      omega

theorem lookup_foldl_stepCond (rows : List Row) (m : List (String × ℕ))
    (g : String) :
    ((rows.foldl stepCond m).lookup g).getD 0 =
      (m.lookup g).getD 0 + specGroupTotal rows "Condition" g := by
  induction rows generalizing m with
  | nil => simp [specGroupTotal]
  | cons r rs ih =>
    rw [List.foldl_cons, ih, specGroupTotal_cons, stepCond]
    by_cases h : jsGetD r "Condition" = ""
    · rw [if_pos h, if_pos h]
      omega
    · rw [if_neg h, if_neg h, lookup_foldl_bumpCount]
      omega

/-- C1: in both the Group Aggregator and the medical chart's
`countConditions`, a group's total equals the sum, over the processed rows
with a non-empty condition cell, of the number of times the group occurs
among the row's `", "`-split condition tokens — each row contributes to
every group named by its tokens (multi-membership), and rows with an empty
condition value contribute to no group at all. -/
theorem group_total_multi_membership :
    (∀ (data : List Row) (condCol : String) (cols : List String)
        (filters : List (String × List String)) (g : String),
        obsTotal (buildCounts (applyFilters data filters) condCol cols) g =
          specGroupTotal (applyFilters data filters) condCol g) ∧
    (∀ (rows : List Row) (g : String),
        ((countCond rows).lookup g).getD 0 = specGroupTotal rows "Condition" g) := by
  constructor
  · intro data condCol cols filters g
    rw [buildCounts, obsTotal_foldl_stepRow]
    simp [obsTotal, List.lookup]
  · intro rows g
    rw [countCond, lookup_foldl_stepCond]
    simp [List.lookup]

/-- C4: the Group Aggregator's output is a descending-by-first-measure
stable sort truncated to 20 records, so its length is exactly
`min 20 (number of distinct condition groups)` of the filtered rows. -/
theorem group_output_top20 (data : List Row) (condCol : String)
    (cols : List String) (filters : List (String × List String)) :
    (processData data condCol cols filters).length =
      min 20 ((allTokens (applyFilters data filters) condCol).dedup).length ∧
    (processData data condCol cols filters).Pairwise
      (fun a b => sortKey cols b ≤ sortKey cols a) := by
  constructor
  · rw [processData]
    by_cases hd : data.isEmpty
    · rw [if_pos hd]
      obtain rfl : data = [] := List.isEmpty_iff.mp hd
      simp [applyFilters, allTokens]
    · rw [if_neg hd, List.length_take, length_sortStable, List.length_map]
      have hnd : (keysOf (buildCounts (applyFilters data filters) condCol cols)).Nodup := by
        rw [buildCounts]
        exact nodup_keysOf_foldl_stepRow _ _ _ _ (by simp [keysOf])
      have hmem : ∀ g, g ∈ keysOf (buildCounts (applyFilters data filters) condCol cols) ↔
          g ∈ (allTokens (applyFilters data filters) condCol).dedup := by
        intro g
        rw [buildCounts, mem_keysOf_foldl_stepRow, List.mem_dedup]
        simp [keysOf]
      have hperm := (List.perm_ext_iff_of_nodup hnd (List.nodup_dedup _)).mpr hmem
      have hlen : (keysOf (buildCounts (applyFilters data filters) condCol cols)).length =
          ((allTokens (applyFilters data filters) condCol).dedup).length := hperm.length_eq
      rw [keysOf, List.length_map] at hlen
      rw [hlen]
  · rw [processData]
    by_cases hd : data.isEmpty
    · rw [if_pos hd]
      simp
    · rw [if_neg hd]
      refine List.Pairwise.sublist (List.take_sublist _ _) ?_
      have hp := pairwise_sortStable
        (fun a b => decide (sortKey cols b ≤ sortKey cols a))
        (by
          intro a b c hab hbc
          simp only [decide_eq_true_eq] at *
          exact le_trans hbc hab)
        (by
          intro a b
          rcases le_total (sortKey cols b) (sortKey cols a) with h | h
          · exact Or.inl (by simpa using h)
          · exact Or.inr (by simpa using h))
        ((buildCounts (applyFilters data filters) condCol cols).map (mkRecord data cols))
      exact hp.imp (by intro a b h; simpa using h)

theorem lookup_map_pair (f : String → ℚ) (cols : List String) (c : String)
    (hc : c ∈ cols) : (cols.map (fun x => (x, f x))).lookup c = some (f c) := by
  induction cols with
  | nil => simp at hc
  | cons c0 rest ih =>
    rw [List.map_cons, lookup_consKV]
    by_cases h : c = c0
    · rw [if_pos h, h]
    · rw [if_neg h]
      refine ih ?_
      rcases List.mem_cons.mp hc with h' | h'
      · exact absurd h' h
      · exact h'

/-- C3: numeric-ness of a measure column is decided by the first data row's
cell alone, and every emitted record's reported value is the accumulated
number divided by the group total — times `100` in the non-numeric
(percentage) branch. -/
theorem group_measure_values (data : List Row) (condCol : String)
    (cols : List String) (filters : List (String × List String))
    (hnd : cols.Nodup) (rec : ProcessedItem)
    (hrec : rec ∈ processData data condCol cols filters)
    (c : String) (hc : c ∈ cols) :
    valueOf rec c =
      if (parseFloatJs (firstRowVal data c)).isSome then
        specGroupSum (applyFilters data filters) condCol rec.condition c /
          (specGroupTotal (applyFilters data filters) condCol rec.condition : ℚ)
      else
        specGroupSum (applyFilters data filters) condCol rec.condition c /
          (specGroupTotal (applyFilters data filters) condCol rec.condition : ℚ) * 100 := by
  rw [processData] at hrec
  by_cases hd : data.isEmpty
  · rw [if_pos hd] at hrec
    simp at hrec
  · rw [if_neg hd] at hrec
    have hrec2 := (List.take_sublist 20 _).subset hrec
    rw [mem_sortStable, List.mem_map] at hrec2
    obtain ⟨⟨g, acc⟩, hp, rfl⟩ := hrec2
    have hkeysnd : (keysOf (buildCounts (applyFilters data filters) condCol cols)).Nodup := by
      rw [buildCounts]
      exact nodup_keysOf_foldl_stepRow _ _ _ _ (by simp [keysOf])
    have hlookup : (buildCounts (applyFilters data filters) condCol cols).lookup g = some acc :=
      lookup_eq_of_mem_of_nodup _ _ _ hkeysnd hp
    have htotal : acc.total = specGroupTotal (applyFilters data filters) condCol g := by
      have hobs := obsTotal_foldl_stepRow condCol cols (applyFilters data filters) [] g
      rw [show (applyFilters data filters).foldl (stepRow condCol cols) [] =
        buildCounts (applyFilters data filters) condCol cols from rfl] at hobs
      rw [obsTotal, hlookup] at hobs
      simpa [obsTotal, List.lookup] using hobs
    have hsum : (acc.counts.lookup c).getD 0 =
        specGroupSum (applyFilters data filters) condCol g c := by
      have hobs := obsSum_foldl_stepRow condCol cols hnd c hc
        (applyFilters data filters) [] g
      rw [show (applyFilters data filters).foldl (stepRow condCol cols) [] =
        buildCounts (applyFilters data filters) condCol cols from rfl] at hobs
      rw [obsSum, hlookup] at hobs
      simpa [obsSum, List.lookup] using hobs
    show valueOf (mkRecord data cols (g, acc)) c = _
    rw [valueOf]
    have hval : (mkRecord data cols (g, acc)).values =
        cols.map fun x => (x, deriveValue data acc x) := rfl
    rw [hval, lookup_map_pair (fun x => deriveValue data acc x) cols c hc,
      Option.getD_some, deriveValue]
    have hcond : (mkRecord data cols (g, acc)).condition = g := rfl
    rw [hcond, htotal, hsum]

/-! ### Pivot Aggregator (`pivot-chart.tsx` `processData`) -/

/-- The pivot selection `{ rows, columns, values }`. -/
structure PivotConfig where
  rows : List String
  columns : List String
  values : List String

/-- The pivot variant's filter predicate:
`values.includes(String(item[column]))` — note the `String(...)` coercion,
under which an absent column reads as the string `"undefined"`. -/
def passesFiltersPivot (filters : List (String × List String)) (r : Row) : Bool :=
  filters.all fun p => p.2.isEmpty || p.2.contains (jsString (jsGet r p.1))

/-- The pivot variant's filter application. -/
def applyFiltersPivot (data : List Row)
    (filters : List (String × List String)) : List Row :=
  data.filter (passesFiltersPivot filters)

/-- JS `array.join("|")`. -/
def joinPipe : List String → String
  | [] => ""
  | [s] => s
  | s :: rest => s ++ "|" ++ joinPipe rest

/-- Composite row key: `config.rows.map(row => String(item[row])).join("|")`. -/
def rowKeyOf (cfg : PivotConfig) (r : Row) : String :=
  joinPipe (cfg.rows.map fun c => jsString (jsGet r c))

/-- Composite column key, same join on `config.columns`. -/
def colKeyOf (cfg : PivotConfig) (r : Row) : String :=
  joinPipe (cfg.columns.map fun c => jsString (jsGet r c))

/-- `config.values.map(() => 0)`: the zero vector a cell starts from. -/
def zerosVec (cfg : PivotConfig) : List ℚ := cfg.values.map fun _ => 0

/-- One row's contribution vector, `Number(item[value]) || 0` per value
column. -/
def rowVec (cfg : PivotConfig) (r : Row) : List ℚ :=
  cfg.values.map fun c => jsNumOr0 (jsString (jsGet r c))

/-- Pointwise vector addition (`pivotTable[rowKey][colKey][index] += ...`
over all value indices; cell and contribution always share the value-column
arity). -/
def addVec (v w : List ℚ) : List ℚ := List.zipWith (· + ·) v w

/-- One row's effect on the nested pivot table: create the row map and the
zero cell if missing, then accumulate the row's contribution vector. -/
def pivotStep (cfg : PivotConfig)
    (t : List (String × List (String × List ℚ))) (r : Row) :
    List (String × List (String × List ℚ)) :=
  updateAssoc t (rowKeyOf cfg r) fun o =>
    updateAssoc (o.getD []) (colKeyOf cfg r) fun oc =>
      addVec (oc.getD (zerosVec cfg)) (rowVec cfg r)

/-- The `pivotTable` built by the accumulation loop. -/
def buildPivot (rows : List Row) (cfg : PivotConfig) :
    List (String × List (String × List ℚ)) :=
  rows.foldl (pivotStep cfg) []

/-- `pivotTable[row]?.[col]` as an option. -/
def lookup2 (t : List (String × List (String × List ℚ))) (rk ck : String) :
    Option (List ℚ) :=
  match t.lookup rk with
  | none => none
  | some inner => inner.lookup ck

/-- `pivotTable[row]?.[col] || config.values.map(() => 0)`: the cell
reported for a `(rowKey, colKey)` pair, zero-filled when absent. -/
def pivotEntry (t : List (String × List (String × List ℚ)))
    (cfg : PivotConfig) (rk ck : String) : List ℚ :=
  (lookup2 t rk ck).getD (zerosVec cfg)

/-- The Pivot Aggregator `processData`: filter, collect first-appearance
deduplicated composite keys, accumulate, and report the full
`rows × columns` matrix of cells. -/
def processDataPivot (data : List Row) (cfg : PivotConfig)
    (filters : List (String × List String)) :
    List String × List String × List (List (List ℚ)) :=
  let filtered := applyFiltersPivot data filters
  let uniqueRows := dedupFirst (filtered.map (rowKeyOf cfg))
  let uniqueCols := dedupFirst (filtered.map (colKeyOf cfg))
  let table := buildPivot filtered cfg
  (uniqueRows, uniqueCols,
    uniqueRows.map fun rk => uniqueCols.map fun ck => pivotEntry table cfg rk ck)

/-- Does a row land in the `(rk, ck)` cell? -/
def matchesKeys (cfg : PivotConfig) (rk ck : String) (r : Row) : Bool :=
  (rowKeyOf cfg r == rk) && (colKeyOf cfg r == ck)

/-- Spec-side cell value: the contribution vectors of exactly the matching
rows, summed onto the zero vector. -/
def specCellSum (cfg : PivotConfig) (rows : List Row) (rk ck : String) : List ℚ :=
  (rows.filter (matchesKeys cfg rk ck)).foldl
    (fun v r => addVec v (rowVec cfg r)) (zerosVec cfg)

theorem pivotEntry_pivotStep_match (cfg : PivotConfig)
    (t : List (String × List (String × List ℚ))) (r : Row) :
    pivotEntry (pivotStep cfg t r) cfg (rowKeyOf cfg r) (colKeyOf cfg r) =
      addVec (pivotEntry t cfg (rowKeyOf cfg r) (colKeyOf cfg r)) (rowVec cfg r) := by
  rw [pivotEntry, pivotEntry, lookup2, pivotStep, lookup_updateAssoc_self]
  rcases ht : t.lookup (rowKeyOf cfg r) with _ | inner
  · simp only [Option.getD_none]
    rw [lookup2, ht]
    rw [lookup_updateAssoc_self]
    simp [List.lookup]
  · simp only [Option.getD_some]
    rw [lookup2, ht]
    rw [lookup_updateAssoc_self]
    rcases hin : inner.lookup (colKeyOf cfg r) with _ | cell <;> simp [hin]

theorem pivotEntry_pivotStep_nomatch (cfg : PivotConfig)
    (t : List (String × List (String × List ℚ))) (r : Row) (rk ck : String)
    (h : ¬(rowKeyOf cfg r = rk ∧ colKeyOf cfg r = ck)) :
    pivotEntry (pivotStep cfg t r) cfg rk ck = pivotEntry t cfg rk ck := by
  by_cases hr : rowKeyOf cfg r = rk
  · have hc : colKeyOf cfg r ≠ ck := fun hc => h ⟨hr, hc⟩
    rw [pivotEntry, pivotEntry, lookup2, lookup2, pivotStep, hr,
      lookup_updateAssoc_self]
    rcases ht : t.lookup rk with _ | inner
    · simp only [Option.getD_none]
      rw [lookup_updateAssoc_ne _ _ _ _ (Ne.symm hc)]
      simp [List.lookup]
    · simp only [Option.getD_some]
      rw [lookup_updateAssoc_ne _ _ _ _ (Ne.symm hc)]
  · rw [pivotEntry, pivotEntry, lookup2, lookup2, pivotStep,
      lookup_updateAssoc_ne _ _ _ _ (Ne.symm hr)]

theorem pivotEntry_foldl (cfg : PivotConfig) (rows : List Row)
    (t : List (String × List (String × List ℚ))) (rk ck : String) :
    pivotEntry (rows.foldl (pivotStep cfg) t) cfg rk ck =
      (rows.filter (matchesKeys cfg rk ck)).foldl
        (fun v r => addVec v (rowVec cfg r)) (pivotEntry t cfg rk ck) := by
  induction rows generalizing t with
  | nil => simp
  | cons r rs ih =>
    rw [List.foldl_cons, ih]
    by_cases h : rowKeyOf cfg r = rk ∧ colKeyOf cfg r = ck
    · have hm : matchesKeys cfg rk ck r = true := by
        rw [matchesKeys]
        simp [h.1, h.2]
      rw [List.filter_cons_of_pos hm, List.foldl_cons]
      obtain ⟨h1, h2⟩ := h
      rw [← h1, ← h2, pivotEntry_pivotStep_match]
    · have hm : ¬matchesKeys cfg rk ck r = true := by
        rw [matchesKeys]
        simp only [Bool.and_eq_true, beq_iff_eq]
        tauto
      rw [List.filter_cons_of_neg (by simpa using hm),
        pivotEntry_pivotStep_nomatch cfg t r rk ck h]

theorem map_zero_eq_replicate (l : List String) :
    (l.map fun _ => (0 : ℚ)) = List.replicate l.length 0 := by
  induction l with
  | nil => rfl
  | cons x xs ih => simp [List.replicate, ih]

/-- C8: each reported pivot cell equals the sum of the contribution vectors
of exactly the matching filtered rows (so unparseable cells contribute `0`
via `Number(cell) || 0`, never an error); a `(rowKey, colKey)` pair with no
matching rows is reported as the zero vector of value-column arity, never as
an absent entry, and the reported matrix is total over the key sets. -/
theorem pivot_zero_fill (data : List Row) (cfg : PivotConfig)
    (filters : List (String × List String)) (rk ck : String) :
    (pivotEntry (buildPivot (applyFiltersPivot data filters) cfg) cfg rk ck =
      specCellSum cfg (applyFiltersPivot data filters) rk ck) ∧
    ((∀ r ∈ applyFiltersPivot data filters,
        ¬(rowKeyOf cfg r = rk ∧ colKeyOf cfg r = ck)) →
      pivotEntry (buildPivot (applyFiltersPivot data filters) cfg) cfg rk ck =
        List.replicate cfg.values.length 0) ∧
    ((processDataPivot data cfg filters).2.2.length =
      (processDataPivot data cfg filters).1.length ∧
     ∀ row ∈ (processDataPivot data cfg filters).2.2,
        row.length = (processDataPivot data cfg filters).2.1.length) ∧
    (∀ (r : Row) (c : String), jsNumber (jsString (jsGet r c)) = none →
      jsNumOr0 (jsString (jsGet r c)) = 0) := by
  have hchar : pivotEntry (buildPivot (applyFiltersPivot data filters) cfg) cfg rk ck =
      specCellSum cfg (applyFiltersPivot data filters) rk ck := by
    rw [buildPivot, pivotEntry_foldl, specCellSum]
    rfl
  refine ⟨hchar, ?_, ?_, ?_⟩
  · intro hnone
    have hfil : (applyFiltersPivot data filters).filter (matchesKeys cfg rk ck) = [] := by
      rw [List.filter_eq_nil_iff]
      intro r hr
      have := hnone r hr
      rw [matchesKeys]
      simp only [Bool.and_eq_true, beq_iff_eq]
      tauto
    rw [hchar, specCellSum, hfil, List.foldl_nil, zerosVec, map_zero_eq_replicate]
  · constructor
    · rw [processDataPivot]
      simp only [List.length_map]
    · rw [processDataPivot]
      intro row hrow
      simp only [List.mem_map] at hrow
      obtain ⟨rk', _, rfl⟩ := hrow
      simp only [List.length_map]
  · intro r c h
    rw [jsNumOr0, h]
    rfl

/-! ### Tabular Parser (`parseFile`, CSV branch) -/

/-- `values[index]?.trim() || ""`: the cell at position `i`, trimmed, with
missing positions (line shorter than the header row) reading as `""`. -/
def cellVal (values : List String) (i : ℕ) : String :=
  jsTrim (values.getD i "")

/-- `headers.reduce((obj, header, index) => { obj[header] = ...; return obj },
{})`: build one row object keyed by the trimmed headers. -/
def mkRowCsv (headers : List String) (values : List String) : Row :=
  headers.enum.foldl (fun obj p => setAssoc obj p.2 (cellVal values p.1)) []

/-- Parse one data line against the headers. -/
def parseLineCsv (headers : List String) (line : String) : Row :=
  mkRowCsv headers (splitCharS ',' line)

/-- The CSV branch of `parseFile`: split into lines, trim the first line's
comma-separated fields into headers, parse the remaining lines positionally,
and drop rows whose every field is empty. -/
def parseFileCsv (content : String) : List String × List Row :=
  match splitCharS '\n' content with
  | [] => ([], [])
  | l0 :: rest =>
    let headers := (splitCharS ',' l0).map jsTrim
    (headers,
      (rest.map (parseLineCsv headers)).filter fun r => r.any fun p => !(p.2 == ""))

theorem lookup_foldl_setAssoc_isSome (f : ℕ → String) (ps : List (ℕ × String))
    (obj : Row) (k : String) :
    ((ps.foldl (fun o p => setAssoc o p.2 (f p.1)) obj).lookup k).isSome ↔
      k ∈ ps.map Prod.snd ∨ (obj.lookup k).isSome := by
  induction ps generalizing obj with
  | nil => simp
  | cons p ps ih =>
    rw [List.foldl_cons, ih, List.map_cons, List.mem_cons]
    by_cases h : k = p.2
    · subst h
      rw [setAssoc, lookup_updateAssoc_self]
      simp
    · rw [setAssoc, lookup_updateAssoc_ne _ _ _ _ h]
      tauto

theorem lookup_foldl_setAssoc_notmem (f : ℕ → String) (ps : List (ℕ × String))
    (obj : Row) (k : String) (hk : k ∉ ps.map Prod.snd) :
    (ps.foldl (fun o p => setAssoc o p.2 (f p.1)) obj).lookup k = obj.lookup k := by
  induction ps generalizing obj with
  | nil => rfl
  | cons p ps ih =>
    rw [List.map_cons, List.mem_cons] at hk
    rw [List.foldl_cons,
      ih (setAssoc obj p.2 (f p.1)) (fun h => hk (Or.inr h)),
      setAssoc, lookup_updateAssoc_ne _ _ _ _ (fun h => hk (Or.inl h))]

theorem lookup_foldl_setAssoc_of_mem (f : ℕ → String) (ps : List (ℕ × String))
    (obj : Row) (i : ℕ) (k : String) (hmem : (i, k) ∈ ps)
    (hnd : (ps.map Prod.snd).Nodup) :
    (ps.foldl (fun o p => setAssoc o p.2 (f p.1)) obj).lookup k = some (f i) := by
  induction ps generalizing obj with
  | nil => simp at hmem
  | cons p ps ih =>
    rw [List.map_cons, List.nodup_cons] at hnd
    rw [List.foldl_cons]
    rcases List.mem_cons.mp hmem with heq | hmem'
    · obtain ⟨rfl, rfl⟩ := Prod.mk.injEq .. ▸ heq
      rw [lookup_foldl_setAssoc_notmem _ _ _ _ hnd.1, setAssoc,
        lookup_updateAssoc_self]
    · exact ih _ hmem' hnd.2

/-- C10: every row returned by the CSV parser is total over the (trimmed)
header set — a key looks up successfully iff it is a header — and a data
line with fewer fields than headers fills the missing positions with the
empty string instead of leaving them absent. -/
theorem parser_rows_total (content : String) :
    (∀ row ∈ (parseFileCsv content).2, ∀ k : String,
        ((row.lookup k).isSome ↔ k ∈ (parseFileCsv content).1)) ∧
    (∀ (headers values : List String), headers.Nodup →
        ∀ i, (hi : i < headers.length) → values.length ≤ i →
          (mkRowCsv headers values).lookup (headers.get ⟨i, hi⟩) = some "") := by
  constructor
  · intro row hrow k
    rw [parseFileCsv] at hrow ⊢
    rcases hsplit : splitCharS '\n' content with _ | ⟨l0, rest⟩
    · rw [hsplit] at hrow
      simp at hrow
    · rw [hsplit] at hrow
      dsimp only at hrow ⊢
      rw [List.mem_filter] at hrow
      rcases List.mem_map.mp hrow.1 with ⟨line, _, rfl⟩
      rw [parseLineCsv, mkRowCsv, lookup_foldl_setAssoc_isSome]
      simp [List.enum_map_snd, List.lookup]
  · intro headers values hnd i hi hlen
    rw [mkRowCsv]
    have hmem : (i, headers.get ⟨i, hi⟩) ∈ headers.enum := by
      have : headers.enum.get ⟨i, by simpa using hi⟩ = (i, headers.get ⟨i, hi⟩) := by
        simp [List.getElem_enum]
      rw [← this]
      exact List.get_mem _ _ _
    have hval : cellVal values i = "" := by
      rw [cellVal, List.getD_eq_default _ _ hlen]
      rfl
    rw [lookup_foldl_setAssoc_of_mem (cellVal values) _ _ i _ hmem
      (by rw [List.enum_map_snd]; exact hnd), hval]

/-! ### Concrete witnesses -/

/-- One-row input used to witness the Group Aggregator value derivation. -/
def c3data : List Row := [[("c", "A"), ("m", "2")]]

/-- Witness for C3 at a concrete input: the single group `A` of `c3data`
reports mean `2` for the numeric measure column `m`. -/
theorem group_measure_values_witness :
    valueOf ⟨"A", [("m", (2 : ℚ))]⟩ "m" = 2 := by
  have hpd : processData c3data "c" ["m"] [] = [⟨"A", [("m", (2 : ℚ))]⟩] := by
    simp [processData, c3data, applyFilters, passesFilters, buildCounts, stepRow,
      stepToken, addMeasure, updateAssoc, initCounts, setAssoc, jsGetD, jsGet,
      splitCommaSpace, splitCommaSpaceAux, mkRecord, deriveValue, firstRowVal,
      sortStable, insertStable, parseFloatJs, readSign, readDigits, digitsToNat,
      mantissaVal, readExp, wsTrim, lookup_consKV, List.lookup]
  have happ := group_measure_values c3data "c" ["m"] [] (by simp)
    ⟨"A", [("m", (2 : ℚ))]⟩ (by rw [hpd]; exact List.mem_singleton.mpr rfl) "m"
    (List.mem_singleton.mpr rfl)
  rw [happ]
  simp [specGroupSum, specGroupTotal, applyFilters, passesFilters, measureContrib,
    firstRowVal, jsGetD, jsGet, splitCommaSpace, splitCommaSpaceAux, parseFloatJs,
    readSign, readDigits, digitsToNat, mantissaVal, readExp, c3data,
    lookup_consKV, List.lookup, List.count_cons]

/-- Witness for C6 at a concrete input: one distinct response value yields
the empty result. -/
theorem comparator_min_two_categories_witness :
    processDataCompare [[("c", "X"), ("r", "Yes")]] "c" "r" [] = ⟨[], "", ""⟩ :=
  (comparator_min_two_categories [[("c", "X"), ("r", "Yes")]] "c" "r" []
    (by decide)).1 (by decide)

/-- Witness for C7 at a concrete input: the record emitted for condition `X`
of the three-row scenario. -/
theorem comparator_sign_invariant_witness :
    (⟨"X", -1, 1, "No", "Yes", 2⟩ : CompRec).leftValue ≤ 0 ∧
      0 ≤ (⟨"X", -1, 1, "No", "Yes", 2⟩ : CompRec).rightValue :=
  comparator_sign_invariant
    [[("cond", "X"), ("resp", "Yes")], [("cond", "X"), ("resp", "No")],
     [("cond", "Y"), ("resp", "Yes")]]
    "cond" "resp" [] ⟨"X", -1, 1, "No", "Yes", 2⟩ (by decide)

/-- Witness for C8 at a concrete input: the `(a, y)` cell has no matching
row and is reported as the zero vector of arity 1. -/
theorem pivot_zero_fill_witness :
    pivotEntry
        (buildPivot
          (applyFiltersPivot
            [[("r", "a"), ("k", "x"), ("v", "1")],
             [("r", "b"), ("k", "y"), ("v", "2")]] [])
          ⟨["r"], ["k"], ["v"]⟩)
        ⟨["r"], ["k"], ["v"]⟩ "a" "y" =
      List.replicate 1 0 :=
  (pivot_zero_fill
    [[("r", "a"), ("k", "x"), ("v", "1")], [("r", "b"), ("k", "y"), ("v", "2")]]
    ⟨["r"], ["k"], ["v"]⟩ [] "a" "y").2.1 (by decide)

/-- Witness for C9 at a concrete input: condition `X` has one `Maybe` row
counting only toward the total, so `1 + 1 ≤ 3`. -/
theorem comparator_totals_bound_witness :
    -(⟨"X", -1, 1, "Maybe", "No", 3⟩ : CompRec).leftValue +
        (⟨"X", -1, 1, "Maybe", "No", 3⟩ : CompRec).rightValue ≤
      ((⟨"X", -1, 1, "Maybe", "No", 3⟩ : CompRec).total : ℤ) :=
  comparator_totals_bound.1
    [[("c", "X"), ("r", "Yes")], [("c", "X"), ("r", "No")],
     [("c", "X"), ("r", "Maybe")]]
    "c" "r" [] ⟨"X", -1, 1, "Maybe", "No", 3⟩ (by decide)

/-- Witness for C10 at a concrete input: the short data line `"1"` of
`"a,b\n1"` still yields a value for header `b`. -/
theorem parser_rows_total_witness :
    (([("a", "1"), ("b", "")] : Row).lookup "b").isSome = true :=
  ((parser_rows_total "a,b\n1").1 [("a", "1"), ("b", "")] (by decide) "b").mpr
    (by decide)
